import Mathlib

/-!
Verification of the regex-enumeration engine in `src/main.rs` (passwd-gen).

The program compiles a parsed regex syntax tree (`regex_syntax::hir::Hir`)
into a lazy sequence of byte-string candidates, built on a lazy multiway
Cartesian product ("odometer"), with a boundedness check guarding the CLI.

Modelling choices:
* byte strings are `List Nat` (all produced values are in `0..=255`);
* a deterministic restartable factory (`F: Fn() -> I`) is modelled by the
  list of elements the produced iterator yields;
* the lazy iterators of the Rust code are modelled by finite lists; the one
  genuinely infinite stream (`(min..).flat_map(mapper)` for an unbounded
  repetition) is truncated after `fuel` repetition counts, and theorems about
  it quantify over all sufficiently large `fuel`.
-/

set_option maxHeartbeats 1000000

/-- Byte strings (`Vec<u8>` in the Rust code) as lists of naturals. -/
abbrev Candidate := List Nat

/-- Shallow embedding of the `regex_syntax::hir::Hir` node kinds consumed by
`iterate_all` in main.rs.  The payload of `Look` is never inspected by the
program, so it is dropped; `Class` is split into its `Unicode` and `Bytes`
variants, each an ordered list of inclusive ranges. -/
inductive Hir : Type where
  | empty : Hir
  | look : Hir
  | literal : List Nat → Hir
  | classUnicode : List (Nat × Nat) → Hir
  | classBytes : List (Nat × Nat) → Hir
  | repetition : Nat → Option Nat → Hir → Hir
  | capture : Hir → Hir
  | concat : List Hir → Hir
  | alternation : List Hir → Hir

/-- State of `MultiCartesianProduct` (main.rs lines 13-22): the factories,
the live iterators (modelled by their remaining elements), the current heads
and the `done` flag. -/
structure MultiCartesianProduct (α : Type) : Type where
  factories : List (List α)
  iters : List (List α)
  heads : List α
  done : Bool

/-- The initialisation loop of `MultiCartesianProduct::new` (main.rs lines
33-40): draw one head from each iterator in turn, stopping at the first
exhausted iterator (which sets `done`).  Returns the advanced iterators, the
heads drawn, and the `done` flag. -/
def drawHeads {α : Type} : List (List α) → List (List α) × List α × Bool
  | [] => ([], [], false)
  | [] :: rest => ([] :: rest, [], true)
  | (x :: xs) :: rest =>
    let r := drawHeads rest
    (xs :: r.1, x :: r.2.1, r.2.2)

/-- `MultiCartesianProduct::new` (main.rs lines 29-47). -/
def MultiCartesianProduct.new {α : Type} (fs : List (List α)) :
    MultiCartesianProduct α :=
  ⟨fs, (drawHeads fs).1, (drawHeads fs).2.1, (drawHeads fs).2.2⟩

/-- The advance loop of `MultiCartesianProduct::next` (main.rs lines 67-80).
`none` models the `unwrap` panic on line 78 (regenerated iterator empty);
`some (heads, iters, wrapped)` is the updated state, where `wrapped = true`
means the carry ran past the last dimension (the zip was exhausted without an
early return), so the product is exhausted. -/
def advance {α : Type} : List α → List (List α) → List (List α) →
    Option (List α × List (List α) × Bool)
  | _ :: hs, it :: its, f :: fs =>
    match it with
    | x :: it2 => some (x :: hs, it2 :: its, false)
    | [] =>
      match f with
      | [] => none
      | y :: f2 =>
        match advance hs its fs with
        | none => none
        | some (hs2, its2, w) => some (y :: hs2, f2 :: its2, w)
  | hs, its, _ => some (hs, its, true)

/-- `MultiCartesianProduct::next` (main.rs lines 58-83).  The outer `none`
models a panic inside the advance loop; `some (none, s)` models the iterator
returning `None` (exhausted); `some (some t, s)` models `Some(t)`. -/
def MultiCartesianProduct.next {α : Type} (s : MultiCartesianProduct α) :
    Option (Option (List α) × MultiCartesianProduct α) :=
  if s.done then some (none, s)
  else if s.factories.isEmpty then some (some [], { s with done := true })
  else
    match advance s.heads s.iters s.factories with
    | none => none
    | some (hs, its, w) =>
      some (some s.heads, { s with heads := hs, iters := its, done := w })

/-- Pull up to `fuel` elements from a `MultiCartesianProduct`, collecting the
emitted tuples (stopping at exhaustion or at the modelled panic). -/
def runEmit {α : Type} : Nat → MultiCartesianProduct α → List (List α)
  | 0, _ => []
  | n + 1, s =>
    match s.next with
    | some (some t, s2) => t :: runEmit n s2
    | _ => []

/-- Apply `next` a given number of times; `none` records that a panic was hit
somewhere along the way. -/
def stepN {α : Type} : Nat → MultiCartesianProduct α → Option (MultiCartesianProduct α)
  | 0, s => some s
  | n + 1, s =>
    match s.next with
    | none => none
    | some (_, s2) => stepN n s2

/-- Enough fuel to exhaust the product of the given finite dimensions. -/
def mcpFuel {α : Type} (fs : List (List α)) : Nat :=
  (fs.map List.length).prod + 1

/-- The full tuple sequence emitted by a `MultiCartesianProduct` built from
the given (finite, deterministic) factories. -/
def mcpRun {α : Type} (fs : List (List α)) : List (List α) :=
  runEmit (mcpFuel fs) (MultiCartesianProduct.new fs)

/-- Specification-side product, following the spec's words (§4.3): every
N-tuple choosing one element per dimension, in mixed-radix counting order
with dimension 0 least significant (changing fastest); for N = 0 exactly one
tuple, the empty tuple. -/
def specProduct {α : Type} : List (List α) → List (List α)
  | [] => [[]]
  | d :: ds => (specProduct ds).flatMap (fun t => d.map (fun x => x :: t))

/-- Inclusive range `a..=b` (empty when `b < a`), as iterated for classes. -/
def rangeIncl (a b : Nat) : List Nat := List.range' a (b + 1 - a)

/-- Rust's `char::encode_utf8`, byte values of the UTF-8 encoding. -/
def utf8Encode (c : Nat) : List Nat :=
  if c < 128 then [c]
  else if c < 2048 then [192 + c / 64, 128 + c % 64]
  else if c < 65536 then [224 + c / 4096, 128 + c / 64 % 64, 128 + c % 64]
  else [240 + c / 262144, 128 + c / 4096 % 64, 128 + c / 64 % 64, 128 + c % 64]

/-- The final defensive filter of `iterate_all` (main.rs lines 168-172):
with a max length present, keep only candidates of length at most that
bound; otherwise pass the sequence through. -/
def lengthFilter (ml : Option Nat) (l : List Candidate) : List Candidate :=
  match ml with
  | some n => l.filter (fun v => v.length ≤ n)
  | none => l

mutual

/-- `iterate_all` (main.rs lines 106-173): compile a syntax tree node into
its candidate sequence.  `fuel` truncates the infinite repetition-count
stream `(min..)` of an unbounded repetition; every other case is exactly the
(finite) sequence the Rust iterator yields. -/
def iterate_all (fuel : Nat) (t : Hir) (ml : Option Nat) : List Candidate :=
  let result : List Candidate :=
    match t with
    | .empty => []
    | .look => []
    | .literal bs => [bs]
    | .classUnicode rs => (rs.flatMap (fun r => rangeIncl r.1 r.2)).map utf8Encode
    | .classBytes rs => (rs.flatMap (fun r => rangeIncl r.1 r.2)).map (fun x => [x])
    | .repetition mn mx sub =>
      let subSeq := iterate_all fuel sub ml
      let mapper : Nat → List Candidate := fun repeats =>
        (mcpRun (List.replicate repeats subSeq)).map (fun x => x.flatten)
      match mx, ml with
      | some m, some L =>
        ((List.range' mn (m + 1 - mn)).flatMap mapper).takeWhile
          (fun x => x.length ≤ L)
      | some m, none => (List.range' mn (m + 1 - mn)).flatMap mapper
      | none, some L =>
        ((List.range' mn fuel).flatMap mapper).takeWhile (fun x => x.length ≤ L)
      | none, none => (List.range' mn fuel).flatMap mapper
    | .capture sub => iterate_all fuel sub ml
    | .concat parts => (mcpRun (iterateParts fuel parts ml)).map (fun x => x.flatten)
    | .alternation parts => (iterateParts fuel parts ml).flatten
  lengthFilter ml result

/-- The per-part sequences `hirs.iter().map(|hir| iterate_all(hir, ...))`
used by the Concat and Alternation arms of `iterate_all`. -/
def iterateParts (fuel : Nat) (ts : List Hir) (ml : Option Nat) :
    List (List Candidate) :=
  match ts with
  | [] => []
  | t :: rest => iterate_all fuel t ml :: iterateParts fuel rest ml

end

mutual

/-- `is_unbounded` (main.rs lines 175-182).  Note that at a `Repetition`
node only the node's own `max` is examined; the sub-tree is not visited. -/
def is_unbounded : Hir → Bool
  | .repetition _ mx _ => mx.isNone
  | .capture sub => is_unbounded sub
  | .concat parts => anyUnbounded parts
  | .alternation parts => anyUnbounded parts
  | _ => false

/-- The `hirs.iter().any(|hir| is_unbounded(hir))` fold of `is_unbounded`. -/
def anyUnbounded : List Hir → Bool
  | [] => false
  | t :: rest => is_unbounded t || anyUnbounded rest

end

mutual

/-- Specification-side boundedness predicate, following the spec's words
(§4.1): true iff a `Repetition` with `max = none` is reachable by descending
through Repetition, Group, Concat and Alternation nodes — in particular it
descends into the sub-tree of a bounded repetition. -/
def spec_reachable_unbounded : Hir → Bool
  | .repetition _ mx sub => mx.isNone || spec_reachable_unbounded sub
  | .capture sub => spec_reachable_unbounded sub
  | .concat parts => anyReachable parts
  | .alternation parts => anyReachable parts
  | _ => false

/-- Disjunction of `spec_reachable_unbounded` over a list of sub-trees. -/
def anyReachable : List Hir → Bool
  | [] => false
  | t :: rest => spec_reachable_unbounded t || anyReachable rest

end

mutual

/-- Trees containing no Repetition node at all: on these, the eager
repetition pruning plays no role. -/
def repetitionFree : Hir → Bool
  | .repetition _ _ _ => false
  | .capture sub => repetitionFree sub
  | .concat parts => allRepetitionFree parts
  | .alternation parts => allRepetitionFree parts
  | _ => true

/-- Conjunction of `repetitionFree` over a list of sub-trees. -/
def allRepetitionFree : List Hir → Bool
  | [] => true
  | t :: rest => repetitionFree t && allRepetitionFree rest

end

/-- The elements covered by a list of inclusive class ranges, in range order
then ascending value within each range (the iteration order of the Class arm
of `iterate_all`, main.rs lines 110-125). -/
def classElems (rs : List (Nat × Nat)) : List Nat :=
  rs.flatMap (fun r => rangeIncl r.1 r.2)

/-- Canonical form of a class's range list, as the `regex_syntax` library
maintains it: every range is non-empty with bounds at most `bound`, and
ranges are sorted and disjoint (each ends strictly before the next begins).
Kept reducible so that concrete instances can be checked by `decide`. -/
abbrev canonicalRanges (bound : Nat) (rs : List (Nat × Nat)) : Prop :=
  (∀ r ∈ rs, r.1 ≤ r.2 ∧ r.2 ≤ bound) ∧ rs.Chain' (fun r s => r.2 < s.1)

/-- The repetition-count mapper closure of the Repetition arm of
`iterate_all` (main.rs lines 127-134): the `repeats`-fold self-product of
the sub-pattern's sequence, each tuple concatenated. -/
def repMapper (fuel : Nat) (sub : Hir) (ml : Option Nat) (repeats : Nat) :
    List Candidate :=
  (mcpRun (List.replicate repeats (iterate_all fuel sub ml))).map
    (fun x => x.flatten)

/-! ### Zipper view of live odometer states (proof-side definitions) -/

/-- Zipper view of a live product state: per dimension the factory's full
list, the current head, and the remaining elements of the live iterator. -/
abbrev Dim (α : Type) := List α × α × List α

/-- Current heads of a zipper state. -/
def headsZ {α : Type} (z : List (Dim α)) : List α := z.map (fun d => d.2.1)

/-- Remaining iterator elements of a zipper state. -/
def itersZ {α : Type} (z : List (Dim α)) : List (List α) := z.map (fun d => d.2.2)

/-- Factory lists of a zipper state. -/
def fullsZ {α : Type} (z : List (Dim α)) : List (List α) := z.map (fun d => d.1)

/-- The product state denoted by a zipper. -/
def stateZ {α : Type} (z : List (Dim α)) : MultiCartesianProduct α :=
  ⟨fullsZ z, itersZ z, headsZ z, false⟩

/-- Every factory list of the zipper is non-empty. -/
def validZ {α : Type} (z : List (Dim α)) : Prop := ∀ d ∈ z, d.1 ≠ []

/-- The tuples still to be emitted from a zipper state: dimension 0 sweeps
its current head and remaining elements first against the other dimensions'
current heads; every later emission of the outer dimensions is paired with a
full sweep of dimension 0's factory. -/
def remZ {α : Type} : List (Dim α) → List (List α)
  | [] => [[]]
  | d :: z =>
    ((d.2.1 :: d.2.2).map (fun x => x :: headsZ z)) ++
      (remZ z).tail.flatMap (fun t => d.1.map (fun x => x :: t))

/-- Invariant of reachable product states: while not done, heads and
iterators track the factories one-to-one and every factory list is
non-empty. -/
def mcpInv {α : Type} (s : MultiCartesianProduct α) : Prop :=
  s.done = false →
    s.heads.length = s.factories.length ∧
    s.iters.length = s.factories.length ∧
    ∀ f ∈ s.factories, f ≠ []

/-- The error message of the guard in `main` (main.rs line 226). -/
def guardMessage : String :=
  "Regex contains infinite range: program will spin forever unless a max length or number of results is specified."

/-- Model of `main` (main.rs lines 221-244) from the parsed tree up to the
candidate stream: the guard of lines 224-228 either aborts with the error
message, or enumeration proceeds and the candidate stream is `iterate_all`.
Conversion to displayable text, the minimum-length filter, the count cap and
printing consume that stream downstream and are not modelled. -/
def mainModel (fuel : Nat) (hir : Hir) (maxLength num : Option Nat) :
    Except String (List Candidate) :=
  if is_unbounded hir && num.isNone && maxLength.isNone then
    Except.error guardMessage
  else
    Except.ok (iterate_all fuel hir maxLength)

/-! ### Correctness of the odometer against the mixed-radix product -/

lemma remZ_eq_cons {α : Type} (z : List (Dim α)) :
    remZ z = headsZ z :: (remZ z).tail := by
  cases z with
  | nil => rfl
  | cons d z => rfl

lemma advance_spec {α : Type} : ∀ (z : List (Dim α)), validZ z →
    (∃ hs its, advance (headsZ z) (itersZ z) (fullsZ z) = some (hs, its, true) ∧
      (remZ z).tail = []) ∨
    (∃ z2, advance (headsZ z) (itersZ z) (fullsZ z) =
        some (headsZ z2, itersZ z2, false) ∧
      fullsZ z2 = fullsZ z ∧ validZ z2 ∧ remZ z2 = (remZ z).tail) := by
  intro z hv
  induction z with
  | nil => exact Or.inl ⟨[], [], rfl, rfl⟩
  | cons d z ih =>
    obtain ⟨full, h, t⟩ := d
    have hvz : validZ z := fun d hd => hv d (List.mem_cons_of_mem _ hd)
    cases t with
    | cons x t2 =>
      refine Or.inr ⟨(full, x, t2) :: z, rfl, rfl, ?_, ?_⟩
      · intro d hd
        rcases List.mem_cons.mp hd with rfl | hd
        · exact hv (full, h, x :: t2) (List.mem_cons_self _ _)
        · exact hvz d hd
      · simp [remZ, headsZ]
    | nil =>
      have hfull : full ≠ [] := hv (full, h, []) (List.mem_cons_self _ _)
      obtain ⟨y, f2, rfl⟩ : ∃ y f2, full = y :: f2 := by
        cases full with
        | nil => exact absurd rfl hfull
        | cons y f2 => exact ⟨y, f2, rfl⟩
      rcases ih hvz with ⟨hs, its, heq, htail⟩ | ⟨z2, heq, hfl, hv2, hrem⟩
      · refine Or.inl ⟨y :: hs, f2 :: its, ?_, ?_⟩
        · simp only [headsZ, itersZ, fullsZ, List.map_cons] at heq ⊢
          simp [advance, heq]
        · simp [remZ, htail]
      · refine Or.inr ⟨(y :: f2, y, f2) :: z2, ?_, ?_, ?_, ?_⟩
        · simp only [headsZ, itersZ, fullsZ, List.map_cons] at heq ⊢
          simp [advance, heq]
        · simp only [fullsZ, List.map_cons] at hfl ⊢
          rw [hfl]
        · intro d hd
          rcases List.mem_cons.mp hd with rfl | hd
          · simp
          · exact hv2 d hd
        · have hz2 := remZ_eq_cons z2
          rw [hrem] at hz2
          simp only [remZ, List.map_cons, List.map_nil, List.cons_append,
            List.nil_append, List.tail_cons]
          conv_rhs => rw [hz2]
          simp only [List.flatMap_cons, List.map_cons]
          rw [hrem]
          simp

lemma runEmit_done {α : Type} (n : Nat) (s : MultiCartesianProduct α)
    (h : s.done = true) : runEmit n s = [] := by
  cases n with
  | zero => rfl
  | succ n => simp [runEmit, MultiCartesianProduct.next, h]

lemma next_not_done {α : Type} (s : MultiCartesianProduct α)
    (h1 : s.done = false) (h2 : s.factories.isEmpty = false) :
    s.next = match advance s.heads s.iters s.factories with
      | none => none
      | some (hs, its, w) =>
        some (some s.heads, { s with heads := hs, iters := its, done := w }) := by
  simp [MultiCartesianProduct.next, h1, h2]

lemma next_stateZ {α : Type} (z : List (Dim α)) (hv : validZ z) :
    (∃ s2, (stateZ z).next = some (some (headsZ z), s2) ∧ s2.done = true ∧
      (remZ z).tail = []) ∨
    (∃ z2, (stateZ z).next = some (some (headsZ z), stateZ z2) ∧ validZ z2 ∧
      remZ z2 = (remZ z).tail) := by
  cases z with
  | nil => exact Or.inl ⟨⟨[], [], [], true⟩, rfl, rfl, rfl⟩
  | cons d z' =>
    have hne : (stateZ (d :: z')).factories.isEmpty = false := by
      simp [stateZ, fullsZ]
    rcases advance_spec (d :: z') hv with ⟨hs, its, heq, htail⟩ |
      ⟨z2, heq, hfl, hv2, hrem⟩
    · refine Or.inl
        ⟨{ stateZ (d :: z') with heads := hs, iters := its, done := true },
          ?_, rfl, htail⟩
      rw [next_not_done _ rfl hne]
      simp only [stateZ, heq]
    · refine Or.inr ⟨z2, ?_, hv2, hrem⟩
      rw [next_not_done _ rfl hne]
      simp only [stateZ, heq]
      rw [hfl]

lemma runEmit_stateZ {α : Type} : ∀ (n : Nat) (z : List (Dim α)), validZ z →
    (remZ z).length ≤ n → runEmit n (stateZ z) = remZ z := by
  intro n
  induction n with
  | zero =>
    intro z hv hl
    rw [remZ_eq_cons z] at hl
    simp at hl
  | succ n ih =>
    intro z hv hl
    have hlen : (remZ z).length = (remZ z).tail.length + 1 := by
      conv_lhs => rw [remZ_eq_cons z]
      simp
    rcases next_stateZ z hv with ⟨s2, heq, hdone, htail⟩ | ⟨z2, heq, hv2, hrem⟩
    · have hstep : runEmit (n + 1) (stateZ z) = headsZ z :: runEmit n s2 := by
        simp [runEmit, heq]
      rw [hstep, runEmit_done n s2 hdone]
      conv_rhs => rw [remZ_eq_cons z, htail]
    · have hstep : runEmit (n + 1) (stateZ z) =
          headsZ z :: runEmit n (stateZ z2) := by
        simp [runEmit, heq]
      have hl2 : (remZ z2).length ≤ n := by
        rw [hrem]
        omega
      rw [hstep, ih z2 hv2 hl2, hrem]
      exact (remZ_eq_cons z).symm

lemma new_stateZ {α : Type} : ∀ (fs : List (List α)), (∀ l ∈ fs, l ≠ []) →
    ∃ z, MultiCartesianProduct.new fs = stateZ z ∧ validZ z ∧
      remZ z = specProduct fs := by
  intro fs
  induction fs with
  | nil =>
    intro _
    exact ⟨[], rfl, fun d hd => (List.not_mem_nil d hd).elim, rfl⟩
  | cons l fs ih =>
    intro hne
    obtain ⟨x, xs, rfl⟩ : ∃ x xs, l = x :: xs := by
      cases l with
      | nil => exact absurd rfl (hne [] (List.mem_cons_self _ _))
      | cons x xs => exact ⟨x, xs, rfl⟩
    obtain ⟨z, hz, hv, hrem⟩ := ih (fun l hl => hne l (List.mem_cons_of_mem _ hl))
    have h1 : (drawHeads fs).1 = itersZ z :=
      congrArg MultiCartesianProduct.iters hz
    have h2 : (drawHeads fs).2.1 = headsZ z :=
      congrArg MultiCartesianProduct.heads hz
    have h3 : (drawHeads fs).2.2 = false :=
      congrArg MultiCartesianProduct.done hz
    have h4 : fs = fullsZ z := congrArg MultiCartesianProduct.factories hz
    refine ⟨(x :: xs, x, xs) :: z, ?_, ?_, ?_⟩
    · simp only [MultiCartesianProduct.new, drawHeads, stateZ, fullsZ, itersZ,
        headsZ, List.map_cons] at h1 h2 h3 h4 ⊢
      rw [h1, h2, h3, h4]
    · intro d hd
      rcases List.mem_cons.mp hd with rfl | hd
      · simp
      · exact hv d hd
    · have hz' := remZ_eq_cons z
      simp only [remZ, specProduct]
      rw [← hrem, hz']
      simp [remZ, List.flatMap_cons, headsZ]

lemma specProduct_length {α : Type} : ∀ (fs : List (List α)),
    (specProduct fs).length = (fs.map List.length).prod := by
  intro fs
  induction fs with
  | nil => rfl
  | cons d ds ih =>
    simp only [specProduct, List.map_cons, List.prod_cons, List.length_flatMap]
    rw [← ih]
    simp only [Function.comp_def, List.length_map]
    rw [List.map_const', List.sum_replicate, smul_eq_mul, mul_comm]

lemma specProduct_eq_nil_of_mem {α : Type} : ∀ (fs : List (List α)),
    [] ∈ fs → specProduct fs = [] := by
  intro fs h
  induction fs with
  | nil => cases h
  | cons d ds ih =>
    rcases List.mem_cons.mp h with h' | h'
    · rw [specProduct, ← h']
      simp
    · rw [specProduct, ih h']
      rfl

lemma drawHeads_done_of_mem {α : Type} : ∀ (fs : List (List α)), [] ∈ fs →
    (drawHeads fs).2.2 = true := by
  intro fs h
  induction fs with
  | nil => cases h
  | cons l rest ih =>
    cases l with
    | nil => rfl
    | cons x xs =>
      have h' : [] ∈ rest := by
        rcases List.mem_cons.mp h with h' | h'
        · cases h'
        · exact h'
      simp [drawHeads, ih h']

/-- The odometer, run to exhaustion on deterministic finite factories, emits
exactly the mixed-radix product of the factory lists. -/
lemma mcpRun_eq_specProduct {α : Type} (fs : List (List α)) :
    mcpRun fs = specProduct fs := by
  by_cases h : ∀ l ∈ fs, l ≠ []
  · obtain ⟨z, hz, hv, hrem⟩ := new_stateZ fs h
    rw [mcpRun, hz, runEmit_stateZ _ z hv ?_, hrem]
    rw [hrem, specProduct_length, mcpFuel]
    omega
  · push_neg at h
    obtain ⟨l, hl, hleq⟩ := h
    subst hleq
    rw [mcpRun, runEmit_done _ _ (drawHeads_done_of_mem fs hl),
      specProduct_eq_nil_of_mem fs hl]

/-! ### The advance-step unwrap never panics -/

lemma drawHeads_not_done {α : Type} : ∀ (fs : List (List α)),
    (drawHeads fs).2.2 = false →
    (drawHeads fs).2.1.length = fs.length ∧
    (drawHeads fs).1.length = fs.length ∧ ∀ l ∈ fs, l ≠ [] := by
  intro fs
  induction fs with
  | nil =>
    intro _
    exact ⟨rfl, rfl, fun l hl => (List.not_mem_nil l hl).elim⟩
  | cons l rest ih =>
    cases l with
    | nil =>
      intro h
      simp [drawHeads] at h
    | cons x xs =>
      intro h
      simp only [drawHeads] at h ⊢
      obtain ⟨a, b, c⟩ := ih h
      refine ⟨by simp [a], by simp [b], ?_⟩
      intro l hl
      rcases List.mem_cons.mp hl with rfl | hl
      · simp
      · exact c l hl

lemma advance_ok {α : Type} : ∀ (fs its : List (List α)) (hs : List α),
    hs.length = fs.length → its.length = fs.length → (∀ f ∈ fs, f ≠ []) →
    ∃ hs2 its2 w, advance hs its fs = some (hs2, its2, w) ∧
      hs2.length = fs.length ∧ its2.length = fs.length := by
  intro fs
  induction fs with
  | nil =>
    intro its hs h1 h2 _
    obtain rfl := List.length_eq_zero.mp h1
    obtain rfl := List.length_eq_zero.mp h2
    exact ⟨[], [], true, rfl, rfl, rfl⟩
  | cons f fs ih =>
    intro its hs h1 h2 hne
    cases hs with
    | nil => simp at h1
    | cons h hs' =>
    cases its with
    | nil => simp at h2
    | cons it its' =>
      simp only [List.length_cons] at h1 h2
      cases it with
      | cons x it2 =>
        exact ⟨x :: hs', it2 :: its', false, rfl, by simp [h1], by simp [h2]⟩
      | nil =>
        have hf : f ≠ [] := hne f (List.mem_cons_self _ _)
        obtain ⟨y, f2, rfl⟩ : ∃ y f2, f = y :: f2 := by
          cases f with
          | nil => exact absurd rfl hf
          | cons y f2 => exact ⟨y, f2, rfl⟩
        obtain ⟨hs2, its2, w, heq, hl1, hl2⟩ :=
          ih its' hs' (by omega) (by omega)
            (fun g hg => hne g (List.mem_cons_of_mem _ hg))
        exact ⟨y :: hs2, f2 :: its2, w, by simp [advance, heq],
          by simp [hl1], by simp [hl2]⟩

lemma new_inv {α : Type} (fs : List (List α)) :
    mcpInv (MultiCartesianProduct.new fs) := by
  intro hdone
  exact drawHeads_not_done fs hdone

lemma next_ok {α : Type} (s : MultiCartesianProduct α) (hinv : mcpInv s) :
    ∃ e s2, s.next = some (e, s2) ∧ mcpInv s2 := by
  cases hdone : s.done with
  | true =>
    refine ⟨none, s, ?_, hinv⟩
    simp [MultiCartesianProduct.next, hdone]
  | false =>
    obtain ⟨h1, h2, h3⟩ := hinv hdone
    cases hemp : s.factories.isEmpty with
    | true =>
      refine ⟨some [], { s with done := true }, ?_, ?_⟩
      · simp [MultiCartesianProduct.next, hdone, hemp]
      · intro hd
        simp at hd
    | false =>
      obtain ⟨hs2, its2, w, heq, hl1, hl2⟩ :=
        advance_ok s.factories s.iters s.heads h1 h2 h3
      refine ⟨some s.heads,
        { s with heads := hs2, iters := its2, done := w }, ?_, ?_⟩
      · rw [next_not_done s hdone hemp, heq]
      · intro _
        exact ⟨hl1, hl2, h3⟩

lemma stepN_ok {α : Type} : ∀ (n : Nat) (s : MultiCartesianProduct α),
    mcpInv s → (stepN n s).isSome = true := by
  intro n
  induction n with
  | zero => intro s _; rfl
  | succ n ih =>
    intro s hinv
    obtain ⟨e, s2, heq, hinv2⟩ := next_ok s hinv
    simp [stepN, heq, ih s2 hinv2]

/-! ### Unfolding lemmas for `iterate_all` -/

lemma iterateParts_eq_map (fuel : Nat) (ts : List Hir) (ml : Option Nat) :
    iterateParts fuel ts ml = ts.map (fun t => iterate_all fuel t ml) := by
  induction ts with
  | nil => rfl
  | cons t rest ih => rw [iterateParts, ih, List.map_cons]

lemma lengthFilter_nil (ml : Option Nat) : lengthFilter ml [] = [] := by
  cases ml <;> rfl

lemma iterate_all_empty (fuel : Nat) (ml : Option Nat) :
    iterate_all fuel Hir.empty ml = [] := by
  cases ml <;> rfl

lemma iterate_all_look (fuel : Nat) (ml : Option Nat) :
    iterate_all fuel Hir.look ml = [] := by
  cases ml <;> rfl

lemma iterate_all_literal (fuel : Nat) (bs : List Nat) (ml : Option Nat) :
    iterate_all fuel (Hir.literal bs) ml = lengthFilter ml [bs] := rfl

lemma iterate_all_classUnicode (fuel : Nat) (rs : List (Nat × Nat))
    (ml : Option Nat) :
    iterate_all fuel (Hir.classUnicode rs) ml =
      lengthFilter ml ((rs.flatMap (fun r => rangeIncl r.1 r.2)).map utf8Encode) :=
  rfl

lemma iterate_all_classBytes (fuel : Nat) (rs : List (Nat × Nat))
    (ml : Option Nat) :
    iterate_all fuel (Hir.classBytes rs) ml =
      lengthFilter ml ((rs.flatMap (fun r => rangeIncl r.1 r.2)).map
        (fun x => [x])) :=
  rfl

lemma iterate_all_capture (fuel : Nat) (sub : Hir) (ml : Option Nat) :
    iterate_all fuel (Hir.capture sub) ml =
      lengthFilter ml (iterate_all fuel sub ml) :=
  rfl

lemma iterate_all_concat (fuel : Nat) (parts : List Hir) (ml : Option Nat) :
    iterate_all fuel (Hir.concat parts) ml =
      lengthFilter ml ((specProduct (iterateParts fuel parts ml)).map
        (fun x => x.flatten)) := by
  have : iterate_all fuel (Hir.concat parts) ml =
      lengthFilter ml ((mcpRun (iterateParts fuel parts ml)).map
        (fun x => x.flatten)) := rfl
  rw [this, mcpRun_eq_specProduct]

lemma iterate_all_alternation (fuel : Nat) (parts : List Hir) (ml : Option Nat) :
    iterate_all fuel (Hir.alternation parts) ml =
      lengthFilter ml ((iterateParts fuel parts ml).flatten) :=
  rfl

lemma iterate_all_rep_ss (fuel mn m L : Nat) (sub : Hir) :
    iterate_all fuel (Hir.repetition mn (some m) sub) (some L) =
      lengthFilter (some L) (((List.range' mn (m + 1 - mn)).flatMap
        (repMapper fuel sub (some L))).takeWhile (fun x => x.length ≤ L)) :=
  rfl

lemma iterate_all_rep_sn (fuel mn m : Nat) (sub : Hir) :
    iterate_all fuel (Hir.repetition mn (some m) sub) none =
      (List.range' mn (m + 1 - mn)).flatMap (repMapper fuel sub none) :=
  rfl

lemma iterate_all_rep_ns (fuel mn L : Nat) (sub : Hir) :
    iterate_all fuel (Hir.repetition mn none sub) (some L) =
      lengthFilter (some L) (((List.range' mn fuel).flatMap
        (repMapper fuel sub (some L))).takeWhile (fun x => x.length ≤ L)) :=
  rfl

lemma iterate_all_rep_nn (fuel mn : Nat) (sub : Hir) :
    iterate_all fuel (Hir.repetition mn none sub) none =
      (List.range' mn fuel).flatMap (repMapper fuel sub none) :=
  rfl

lemma flatMap_eq_nil_of {α β : Type} (l : List α) (f : α → List β)
    (h : ∀ a ∈ l, f a = []) : l.flatMap f = [] := by
  induction l with
  | nil => rfl
  | cons a l ih =>
    rw [List.flatMap_cons, h a (List.mem_cons_self _ _), List.nil_append]
    exact ih (fun b hb => h b (List.mem_cons_of_mem _ hb))

lemma repMapper_eq_nil (fuel : Nat) (sub : Hir) (ml : Option Nat) (r : Nat)
    (hr : 1 ≤ r) (hsub : iterate_all fuel sub ml = []) :
    repMapper fuel sub ml r = [] := by
  rw [repMapper, hsub, mcpRun_eq_specProduct, specProduct_eq_nil_of_mem]
  · rfl
  · exact List.mem_replicate.mpr ⟨by omega, rfl⟩

lemma iterate_all_some_eq_filter (fuel : Nat) (t : Hir) (L : Nat) :
    ∃ l : List Candidate,
      iterate_all fuel t (some L) = l.filter (fun v => v.length ≤ L) := by
  cases t with
  | empty => exact ⟨([] : List Candidate), by rw [iterate_all_empty]; rfl⟩
  | look => exact ⟨([] : List Candidate), by rw [iterate_all_look]; rfl⟩
  | literal bs => exact ⟨[bs], iterate_all_literal fuel bs (some L)⟩
  | classUnicode rs => exact ⟨_, iterate_all_classUnicode fuel rs (some L)⟩
  | classBytes rs => exact ⟨_, iterate_all_classBytes fuel rs (some L)⟩
  | repetition mn mx sub =>
    cases mx with
    | some m => exact ⟨_, iterate_all_rep_ss fuel mn m L sub⟩
    | none => exact ⟨_, iterate_all_rep_ns fuel mn L sub⟩
  | capture sub => exact ⟨_, iterate_all_capture fuel sub (some L)⟩
  | concat parts => exact ⟨_, iterate_all_concat fuel parts (some L)⟩
  | alternation parts => exact ⟨_, iterate_all_alternation fuel parts (some L)⟩

lemma mem_iterate_all_length_le {fuel L : Nat} {t : Hir} {c : Candidate}
    (h : c ∈ iterate_all fuel t (some L)) : c.length ≤ L := by
  obtain ⟨l, hl⟩ := iterate_all_some_eq_filter fuel t L
  rw [hl] at h
  simpa using (List.mem_filter.mp h).2

lemma filter_flatMap_eq {α β : Type} (l : List α) (f : α → List β)
    (p : β → Bool) :
    (l.flatMap f).filter p = l.flatMap (fun a => (f a).filter p) := by
  induction l with
  | nil => rfl
  | cons a l ih => rw [List.flatMap_cons, List.flatMap_cons, List.filter_append, ih]

lemma flatMap_congr_mem {α β : Type} (l : List α) (f g : α → List β)
    (h : ∀ a ∈ l, f a = g a) : l.flatMap f = l.flatMap g := by
  induction l with
  | nil => rfl
  | cons a l ih =>
    rw [List.flatMap_cons, List.flatMap_cons, h a (List.mem_cons_self _ _),
      ih (fun b hb => h b (List.mem_cons_of_mem _ hb))]

/-! ### Claim theorems -/

/-- C1, counterexample: the claim says compiling an Empty (or Lookaround)
node yields exactly one candidate, the empty byte string; in the code
(main.rs line 108, `Box::new(empty())`) it yields no candidate at all. -/
theorem c1_empty_look_counterexample :
    iterate_all 0 Hir.empty none = [] ∧ iterate_all 0 Hir.look none = [] ∧
    ([] : List Candidate) ≠ [[]] := by
  refine ⟨rfl, rfl, by decide⟩

/-- C1, amended: for every Empty or Lookaround node and every max_length,
compilation yields the empty sequence — no candidates at all — so a
lookaround behaves as never satisfiable (its predicate is never evaluated),
not as always satisfied. -/
theorem c1_empty_look_compile_to_empty_sequence (fuel : Nat) (ml : Option Nat) :
    iterate_all fuel Hir.empty ml = [] ∧ iterate_all fuel Hir.look ml = [] :=
  ⟨iterate_all_empty fuel ml, iterate_all_look fuel ml⟩

/-- C2, code bug evidence: for the tree of `(?:a*){1}` — a bounded
repetition whose sub-tree contains an unbounded repetition — `is_unbounded`
returns `false` because it never descends into a Repetition's sub-tree,
while the reachability predicate required by the claim (and by the spec's
§4.1, which lists Repetition among the node kinds descended through) is
`true`. -/
theorem c2_is_unbounded_misses_nested_repetition :
    is_unbounded (Hir.repetition 1 (some 1)
      (Hir.repetition 0 none (Hir.literal [97]))) = false ∧
    spec_reachable_unbounded (Hir.repetition 1 (some 1)
      (Hir.repetition 0 none (Hir.literal [97]))) = true :=
  ⟨rfl, rfl⟩

/-- C4: on a list of finite, non-empty, deterministic factories the odometer
emits exactly the mixed-radix product — every N-tuple choosing one element
per dimension exactly once, dimension 0 changing fastest and dimension N−1
most significant, and for N = 0 the single empty tuple (`specProduct [] =
[[]]` definitionally); the emission count is the product of the dimension
sizes. -/
theorem c4_multi_product_mixed_radix (α : Type) (fs : List (List α))
    (_hne : ∀ l ∈ fs, l ≠ []) :
    mcpRun fs = specProduct fs ∧
    (mcpRun fs).length = (fs.map List.length).prod := by
  refine ⟨mcpRun_eq_specProduct fs, ?_⟩
  rw [mcpRun_eq_specProduct fs, specProduct_length]

/-- Witness for C4 at the concrete factories `[[1,2],[3,4]]`. -/
theorem c4_multi_product_mixed_radix_witness :
    (∀ l ∈ [[1, 2], [3, 4]], l ≠ ([] : List Nat)) ∧
    mcpRun [[1, 2], [3, 4]] = [[1, 3], [2, 3], [1, 4], [2, 4]] ∧
    (mcpRun [[1, 2], [3, 4]]).length = 4 := by
  have h := c4_multi_product_mixed_radix Nat [[1, 2], [3, 4]] (by decide)
  refine ⟨by decide, ?_, ?_⟩
  · rw [h.1]
    decide
  · rw [h.2]
    decide

/-- C9, counterexample: the claim says an empty dimension sequence
propagates through an enclosing Repetition as a zero-candidate outcome, but
a Repetition with `min = 0` over a sub-pattern with an empty sequence still
emits one candidate — the empty string from its zero-fold product. -/
theorem c9_empty_propagation_counterexample :
    iterate_all 0 (Hir.repetition 0 (some 1) (Hir.classBytes [])) none = [[]] ∧
    ([[]] : List Candidate) ≠ [] := by
  refine ⟨by decide, by decide⟩

/-- C9, amended: a product with an empty dimension is empty, and an empty
sub-sequence propagates silently (as a value, never as an error) through an
enclosing Concat unconditionally and through an enclosing Repetition with
`min ≥ 1`; a Repetition with `min = 0` instead still emits the single empty
candidate of its zero-fold product. -/
theorem c9_empty_dimension_propagates (fuel : Nat) (ml : Option Nat) :
    (∀ (α : Type) (fs : List (List α)), [] ∈ fs → mcpRun fs = []) ∧
    (∀ (parts : List Hir) (sub : Hir), sub ∈ parts →
      iterate_all fuel sub ml = [] →
      iterate_all fuel (Hir.concat parts) ml = []) ∧
    (∀ (mn : Nat) (mx : Option Nat) (sub : Hir), 1 ≤ mn →
      iterate_all fuel sub ml = [] →
      iterate_all fuel (Hir.repetition mn mx sub) ml = []) := by
  refine ⟨?_, ?_, ?_⟩
  · intro α fs hmem
    rw [mcpRun_eq_specProduct]
    exact specProduct_eq_nil_of_mem fs hmem
  · intro parts sub hmem hnil
    rw [iterate_all_concat, specProduct_eq_nil_of_mem, List.map_nil,
      lengthFilter_nil]
    rw [iterateParts_eq_map]
    exact List.mem_map.mpr ⟨sub, hmem, hnil⟩
  · intro mn mx sub hmn hnil
    have hmap : ∀ k, (List.range' mn k).flatMap (repMapper fuel sub ml) = [] := by
      intro k
      refine flatMap_eq_nil_of _ _ ?_
      intro r hr
      have hle : mn ≤ r := by
        have := List.mem_range'_1.mp hr
        omega
      exact repMapper_eq_nil fuel sub ml r (by omega) hnil
    cases mx with
    | some m =>
      cases ml with
      | some L =>
        rw [iterate_all_rep_ss, hmap, List.takeWhile_nil, lengthFilter_nil]
      | none => rw [iterate_all_rep_sn, hmap]
    | none =>
      cases ml with
      | some L =>
        rw [iterate_all_rep_ns, hmap, List.takeWhile_nil, lengthFilter_nil]
      | none => rw [iterate_all_rep_nn, hmap]

/-- Witness for C9's amended claim at concrete inputs. -/
theorem c9_empty_dimension_propagates_witness :
    mcpRun [([] : List Nat)] = [] ∧
    iterate_all 0 (Hir.concat [Hir.classBytes []]) none = [] ∧
    iterate_all 0 (Hir.repetition 1 none (Hir.classBytes [])) none = [] := by
  have h := c9_empty_dimension_propagates 0 none
  exact ⟨h.1 Nat [[]] (by decide),
    h.2.1 [Hir.classBytes []] (Hir.classBytes []) (List.mem_singleton.mpr rfl)
      rfl,
    h.2.2 1 none (Hir.classBytes []) (by omega) rfl⟩

/-- C10: from any freshly initialised product over deterministic factories
(each factory reproduces the same list on every regeneration, which the list
model encodes), any number of `next` steps succeeds — the `unwrap` after
regenerating an exhausted dimension never panics. -/
theorem c10_next_unwrap_never_panics (α : Type) (fs : List (List α)) (n : Nat) :
    (stepN n (MultiCartesianProduct.new fs)).isSome = true :=
  stepN_ok n _ (new_inv fs)

lemma alternation_flatMap (fuel : Nat) (parts : List Hir) (ml : Option Nat) :
    iterate_all fuel (Hir.alternation parts) ml =
      parts.flatMap (fun b => iterate_all fuel b ml) := by
  rw [iterate_all_alternation, iterateParts_eq_map, ← List.flatMap_def]
  cases ml with
  | none => rfl
  | some L =>
    show ((parts.flatMap fun b => iterate_all fuel b (some L)).filter
      (fun v => v.length ≤ L)) = _
    rw [filter_flatMap_eq]
    refine flatMap_congr_mem _ _ _ ?_
    intro b _
    refine List.filter_eq_self.mpr ?_
    intro c hc
    simpa using mem_iterate_all_length_le hc

/-- C8: an Alternation compiles to the sequential union of its branches —
branch 1's full candidate sequence, then branch 2's, and so on in
declaration order, with no cross-combination and no deduplication
(`List.flatMap` concatenates the branch sequences verbatim). -/
theorem c8_alternation_sequential_union (fuel : Nat) (parts : List Hir)
    (ml : Option Nat) :
    iterate_all fuel (Hir.alternation parts) ml =
      parts.flatMap (fun b => iterate_all fuel b ml) :=
  alternation_flatMap fuel parts ml

/-- C5, counterexample: the tree of `(?:a*){1}` contains an unbounded
Repetition (the spec-side reachability predicate is true), yet a run with
`max_length = none` and no count cap does not fail: because the guard relies
on `is_unbounded`, which never descends into a Repetition's sub-tree, `main`
proceeds to enumeration and returns the candidate stream — no configuration
error, zero-exit path — contradicting the claimed failure (the real program
then spins forever on this stream). -/
theorem c5_guard_counterexample :
    spec_reachable_unbounded (Hir.repetition 1 (some 1)
      (Hir.repetition 0 none (Hir.literal [97]))) = true ∧
    mainModel 0 (Hir.repetition 1 (some 1)
      (Hir.repetition 0 none (Hir.literal [97]))) none none =
      Except.ok (iterate_all 0 (Hir.repetition 1 (some 1)
        (Hir.repetition 0 none (Hir.literal [97]))) none) :=
  ⟨rfl, rfl⟩

/-- C5, amended: the guard keys on `is_unbounded`, which does not descend
into Repetition sub-trees, so firing is guaranteed only for trees that
`is_unbounded` reports unbounded (an unbounded Repetition nested inside a
bounded one escapes, per the counterexample).  For such a tree, a run with
`max_length = none` and no count cap fails with the configuration error
before any enumeration — the result is the error value carrying the
descriptive message, never a (possibly empty) candidate list — and if
either limit is set the guard does not fire and the candidate stream is
produced. -/
theorem c5_guard_fires_iff_no_limit (fuel : Nat) (t : Hir)
    (h : is_unbounded t = true) :
    (mainModel fuel t none none = Except.error guardMessage ∧
      guardMessage ≠ "" ∧
      ∀ out, mainModel fuel t none none ≠ Except.ok out) ∧
    (∀ maxLength num : Option Nat,
      maxLength.isSome = true ∨ num.isSome = true →
      mainModel fuel t maxLength num =
        Except.ok (iterate_all fuel t maxLength)) := by
  constructor
  · refine ⟨?_, by decide, ?_⟩
    · simp [mainModel, h]
    · intro out hout
      simp [mainModel, h] at hout
  · intro maxLength num hlim
    have hcond : (is_unbounded t && num.isNone && maxLength.isNone) = false := by
      rcases hlim with h1 | h1
      · cases maxLength with
        | none => simp at h1
        | some v => simp
      · cases num with
        | none => simp at h1
        | some v => simp
    simp [mainModel, hcond]

/-- Witness for C5 at the tree of pattern `a*`. -/
theorem c5_guard_witness :
    is_unbounded (Hir.repetition 0 none (Hir.literal [97])) = true ∧
    mainModel 0 (Hir.repetition 0 none (Hir.literal [97])) none none =
      Except.error guardMessage ∧
    mainModel 0 (Hir.repetition 0 none (Hir.literal [97])) (some 5) none =
      Except.ok
        (iterate_all 0 (Hir.repetition 0 none (Hir.literal [97])) (some 5)) := by
  have h := c5_guard_fires_iff_no_limit 0
    (Hir.repetition 0 none (Hir.literal [97])) (by decide)
  exact ⟨by decide, h.1.1, h.2 (some 5) none (Or.inl rfl)⟩

lemma pairwise_lt_rangeIncl (a b : Nat) : (rangeIncl a b).Pairwise (· < ·) := by
  rw [rangeIncl, ← List.chain'_iff_pairwise]
  cases h : b + 1 - a with
  | zero => simp
  | succ n =>
    rw [List.range'_succ]
    exact List.chain_lt_range' a n (by omega)

lemma mem_rangeIncl {x a b : Nat} (h : x ∈ rangeIncl a b) : a ≤ x ∧ x ≤ b := by
  rw [rangeIncl] at h
  have := List.mem_range'_1.mp h
  omega

lemma classElems_lt {rs : List (Nat × Nat)} {x : Nat}
    (hx : ∀ s ∈ rs, x < s.1) : ∀ b ∈ classElems rs, x < b := by
  intro b hb
  rw [classElems] at hb
  obtain ⟨s, hs, hbs⟩ := List.mem_flatMap.mp hb
  have h1 := (mem_rangeIncl hbs).1
  have h2 := hx s hs
  omega

lemma chain_lt_all : ∀ (rs : List (Nat × Nat)) (r : Nat × Nat),
    (∀ s ∈ rs, s.1 ≤ s.2) → List.Chain (fun a b => a.2 < b.1) r rs →
    ∀ s ∈ rs, r.2 < s.1 := by
  intro rs
  induction rs with
  | nil =>
    intro r _ _ s hs
    cases hs
  | cons a l ih =>
    intro r hb hc s hs
    rw [List.chain_cons] at hc
    rcases List.mem_cons.mp hs with rfl | hs
    · exact hc.1
    · have ha := hb a (List.mem_cons_self _ _)
      have hd := ih a (fun u hu => hb u (List.mem_cons_of_mem _ hu)) hc.2 s hs
      omega

lemma classElems_pairwise {bound : Nat} : ∀ (rs : List (Nat × Nat)),
    canonicalRanges bound rs → (classElems rs).Pairwise (· < ·) := by
  intro rs
  induction rs with
  | nil => intro _; exact List.Pairwise.nil
  | cons r rs ih =>
    intro h
    obtain ⟨hb, hchain⟩ := h
    have hchain' : List.Chain (fun a b => a.2 < b.1) r rs := hchain
    have hrs : canonicalRanges bound rs :=
      ⟨fun s hs => hb s (List.mem_cons_of_mem _ hs),
        (List.chain'_cons'.mp hchain).2⟩
    rw [classElems, List.flatMap_cons, List.pairwise_append]
    refine ⟨pairwise_lt_rangeIncl r.1 r.2, ih hrs, ?_⟩
    intro a ha b hbmem
    have h1 : a ≤ r.2 := (mem_rangeIncl ha).2
    have h2 : ∀ s ∈ rs, r.2 < s.1 :=
      chain_lt_all rs r (fun s hs => (hb s (List.mem_cons_of_mem _ hs)).1)
        hchain'
    have h3 := classElems_lt h2 b hbmem
    omega

lemma utf8Encode_injective : Function.Injective utf8Encode := by
  intro a b h
  rw [utf8Encode, utf8Encode] at h
  split_ifs at h <;> simp at h <;> omega

/-- C7: a CharClass in canonical form (as `regex_syntax` maintains it)
compiles to exactly one candidate per element of the class — the list of
elements in ascending range order then ascending value within each range,
each Unicode element UTF-8 encoded and each byte element a single raw byte —
with no duplicates and no omissions; this holds with no max_length, and with
a max_length no smaller than every encoded element (for byte classes, any
max_length of at least one byte). -/
theorem c7_charclass_one_candidate_per_element (fuel : Nat)
    (rs : List (Nat × Nat)) :
    (canonicalRanges 1114111 rs →
      iterate_all fuel (Hir.classUnicode rs) none =
        (classElems rs).map utf8Encode ∧
      (classElems rs).Pairwise (· < ·) ∧
      ((classElems rs).map utf8Encode).Nodup ∧
      (∀ L : Nat, (∀ c ∈ (classElems rs).map utf8Encode, c.length ≤ L) →
        iterate_all fuel (Hir.classUnicode rs) (some L) =
          (classElems rs).map utf8Encode)) ∧
    (canonicalRanges 255 rs →
      iterate_all fuel (Hir.classBytes rs) none =
        (classElems rs).map (fun x => [x]) ∧
      (classElems rs).Pairwise (· < ·) ∧
      ((classElems rs).map (fun x => [x])).Nodup ∧
      (∀ L : Nat, 1 ≤ L →
        iterate_all fuel (Hir.classBytes rs) (some L) =
          (classElems rs).map (fun x => [x]))) := by
  constructor
  · intro h
    have hpw := classElems_pairwise rs h
    refine ⟨rfl, hpw, ?_, ?_⟩
    · exact (hpw.imp (fun hab => Nat.ne_of_lt hab)).map _
        (fun a b hab => fun he => hab (utf8Encode_injective he))
    · intro L hL
      rw [iterate_all_classUnicode]
      show ((classElems rs).map utf8Encode).filter (fun v => v.length ≤ L) = _
      refine List.filter_eq_self.mpr ?_
      intro c hc
      simpa using hL c hc
  · intro h
    have hpw := classElems_pairwise rs h
    refine ⟨rfl, hpw, ?_, ?_⟩
    · exact (hpw.imp (fun hab => Nat.ne_of_lt hab)).map _
        (fun a b hab => fun he => hab (by simpa using he))
    · intro L hL
      rw [iterate_all_classBytes]
      show ((rs.flatMap (fun r => rangeIncl r.1 r.2)).map
        (fun x => [x])).filter (fun v => v.length ≤ L) = _
      refine List.filter_eq_self.mpr ?_
      intro c hc
      obtain ⟨x, _, rfl⟩ := List.mem_map.mp hc
      simpa using hL

/-- Witness for C7 at the concrete canonical class `[a-b d]`. -/
theorem c7_charclass_one_candidate_per_element_witness :
    canonicalRanges 255 [(97, 98), (100, 100)] ∧
    iterate_all 0 (Hir.classUnicode [(97, 98), (100, 100)]) none =
      [[97], [98], [100]] ∧
    iterate_all 0 (Hir.classBytes [(97, 98), (100, 100)]) none =
      [[97], [98], [100]] ∧
    iterate_all 0 (Hir.classBytes [(97, 98), (100, 100)]) (some 1) =
      [[97], [98], [100]] := by
  have hchain :
      List.Chain' (fun r s : Nat × Nat => r.2 < s.1) [(97, 98), (100, 100)] :=
    List.Chain.cons (by decide) List.Chain.nil
  have hu :=
    (c7_charclass_one_candidate_per_element 0 [(97, 98), (100, 100)]).1
      ⟨by decide, hchain⟩
  have hb :=
    (c7_charclass_one_candidate_per_element 0 [(97, 98), (100, 100)]).2
      ⟨by decide, hchain⟩
  refine ⟨⟨by decide, hchain⟩, ?_, ?_, ?_⟩
  · rw [hu.1]
    decide
  · rw [hb.1]
    decide
  · rw [hb.2.2.2 1 (by decide)]
    decide

theorem hirInduction {motive : Hir → Prop} (hempty : motive Hir.empty)
    (hlook : motive Hir.look) (hlit : ∀ bs, motive (Hir.literal bs))
    (hcu : ∀ rs, motive (Hir.classUnicode rs))
    (hcb : ∀ rs, motive (Hir.classBytes rs))
    (hrep : ∀ mn mx sub, motive sub → motive (Hir.repetition mn mx sub))
    (hcap : ∀ sub, motive sub → motive (Hir.capture sub))
    (hconcat : ∀ parts, (∀ p ∈ parts, motive p) → motive (Hir.concat parts))
    (halt : ∀ parts, (∀ p ∈ parts, motive p) →
      motive (Hir.alternation parts)) :
    ∀ t, motive t
  | .empty => hempty
  | .look => hlook
  | .literal bs => hlit bs
  | .classUnicode rs => hcu rs
  | .classBytes rs => hcb rs
  | .repetition mn mx sub => hrep mn mx sub
      (hirInduction hempty hlook hlit hcu hcb hrep hcap hconcat halt sub)
  | .capture sub => hcap sub
      (hirInduction hempty hlook hlit hcu hcb hrep hcap hconcat halt sub)
  | .concat parts => hconcat parts (fun p _ =>
      hirInduction hempty hlook hlit hcu hcb hrep hcap hconcat halt p)
  | .alternation parts => halt parts (fun p _ =>
      hirInduction hempty hlook hlit hcu hcb hrep hcap hconcat halt p)
termination_by t => sizeOf t
decreasing_by
  all_goals simp_wf
  all_goals first
    | omega
    | (rename_i hmem; have := List.sizeOf_lt_of_mem hmem; omega)

lemma filter_idem {α : Type} (p : α → Bool) (l : List α) :
    (l.filter p).filter p = l.filter p := by
  rw [List.filter_filter]
  refine List.filter_congr ?_
  intro x _
  simp

lemma flatMap_filter_eq_if {α β : Type} (l : List α) (q : α → Bool)
    (g : α → List β) :
    (l.filter q).flatMap g = l.flatMap (fun a => if q a then g a else []) := by
  induction l with
  | nil => rfl
  | cons a l ih =>
    cases h : q a with
    | true => simp [List.filter_cons, h, ih]
    | false => simp [List.filter_cons, h, ih]

lemma specProduct_map_filter (L : Nat) (ds : List (List Candidate)) :
    specProduct (ds.map (fun d => d.filter (fun c => c.length ≤ L))) =
      (specProduct ds).filter (fun t => t.all (fun c => c.length ≤ L)) := by
  induction ds with
  | nil => simp [specProduct]
  | cons d ds ih =>
    rw [List.map_cons, specProduct, specProduct, ih, flatMap_filter_eq_if,
      filter_flatMap_eq]
    refine flatMap_congr_mem _ _ _ ?_
    intro t _
    rw [List.filter_map (fun x : Candidate => x :: t) d]
    by_cases h : t.all (fun c => c.length ≤ L) = true
    · rw [if_pos h]
      refine congrArg _ ?_
      refine List.filter_congr ?_
      intro x _
      simp [List.all_cons, h]
    · rw [if_neg h]
      have hfalse : t.all (fun c => c.length ≤ L) = false :=
        Bool.eq_false_iff.mpr h
      have : (d.filter ((fun t2 : List Candidate =>
          t2.all (fun c => c.length ≤ L)) ∘ (fun x : Candidate => x :: t))) =
            [] := by
        refine List.filter_eq_nil_iff.mpr ?_
        intro x _
        simp [List.all_cons, hfalse]
      rw [this, List.map_nil]

lemma filter_map_filter_flatten (L : Nat) (l : List (List Candidate)) :
    ((l.filter (fun t => t.all (fun c => c.length ≤ L))).map
      (fun t => t.flatten)).filter (fun c => c.length ≤ L) =
    (l.map (fun t => t.flatten)).filter (fun c => c.length ≤ L) := by
  rw [List.filter_map, List.filter_map, List.filter_filter]
  refine congrArg _ ?_
  refine List.filter_congr ?_
  intro t _
  by_cases hp : t.flatten.length ≤ L
  · have hall : t.all (fun c => c.length ≤ L) = true := by
      rw [List.all_eq_true]
      intro c hc
      have h1 : c.length ≤ (t.map List.length).sum :=
        List.single_le_sum (fun y _ => Nat.zero_le y) _
          (List.mem_map.mpr ⟨c, hc, rfl⟩)
      rw [← List.length_flatten] at h1
      simpa using Nat.le_trans h1 hp
    simp [Function.comp, hp, hall]
  · have hd : decide (t.flatten.length ≤ L) = false := by simpa using hp
    show (decide (t.flatten.length ≤ L) &&
      t.all fun c => decide (c.length ≤ L)) = decide (t.flatten.length ≤ L)
    rw [hd, Bool.false_and]

lemma allRepetitionFree_mem : ∀ (ts : List Hir), allRepetitionFree ts = true →
    ∀ t ∈ ts, repetitionFree t = true := by
  intro ts h
  induction ts with
  | nil =>
    intro t ht
    cases ht
  | cons a l ih =>
    rw [allRepetitionFree, Bool.and_eq_true] at h
    intro t ht
    rcases List.mem_cons.mp ht with rfl | ht
    · exact h.1
    · exact ih h.2 t ht

lemma c3_core (fuel L : Nat) : ∀ (t : Hir), repetitionFree t = true →
    iterate_all fuel t (some L) =
      (iterate_all fuel t none).filter (fun c => c.length ≤ L) := by
  intro t
  induction t using hirInduction with
  | hempty =>
    intro _
    rw [iterate_all_empty, iterate_all_empty]
    rfl
  | hlook =>
    intro _
    rw [iterate_all_look, iterate_all_look]
    rfl
  | hlit bs => intro _; rfl
  | hcu rs => intro _; rfl
  | hcb rs => intro _; rfl
  | hrep mn mx sub ih =>
    intro h
    simp [repetitionFree] at h
  | hcap sub ih =>
    intro h
    rw [iterate_all_capture, iterate_all_capture]
    show (iterate_all fuel sub (some L)).filter (fun c => c.length ≤ L) = _
    rw [ih h]
    exact filter_idem _ _
  | hconcat parts ih =>
    intro h
    have hmem := allRepetitionFree_mem parts h
    rw [iterate_all_concat, iterate_all_concat, iterateParts_eq_map,
      iterateParts_eq_map]
    have hdims : parts.map (fun b => iterate_all fuel b (some L)) =
        (parts.map (fun b => iterate_all fuel b none)).map
          (fun d => d.filter (fun c => c.length ≤ L)) := by
      rw [List.map_map]
      refine List.map_congr_left ?_
      intro b hb
      exact ih b hb (hmem b hb)
    rw [hdims, specProduct_map_filter]
    exact filter_map_filter_flatten L _
  | halt parts ih =>
    intro h
    have hmem := allRepetitionFree_mem parts h
    rw [alternation_flatMap, alternation_flatMap, filter_flatMap_eq]
    refine flatMap_congr_mem _ _ _ ?_
    intro b hb
    exact ih b hb (hmem b hb)

/-- C3, counterexample: for the tree of `(bb|a){2}` with max_length 2, the
pruned enumeration is empty — the eager `take_while` stops at the first
over-length candidate "bbbb" — while the unrestricted enumeration filtered
to length at most 2 still contains "aa", which appears later in the mixed-
radix order of the 2-fold product. -/
theorem c3_pruning_counterexample :
    iterate_all 0 (Hir.repetition 2 (some 2)
      (Hir.alternation [Hir.literal [98, 98], Hir.literal [97]])) (some 2) =
      [] ∧
    (iterate_all 0 (Hir.repetition 2 (some 2)
      (Hir.alternation [Hir.literal [98, 98], Hir.literal [97]]))
        none).filter (fun c => c.length ≤ 2) = [[97, 97]] ∧
    ([] : List Candidate) ≠ [[97, 97]] := by
  exact ⟨by decide, by decide, by decide⟩

/-- C3, amended: on trees without Repetition nodes, compiling with
`max_length = L` yields exactly the unrestricted sequence with the
over-length candidates removed, in the same relative order.  For trees with
a Repetition the equality fails: the eager pruning truncates the
repetition's stream at its first over-length candidate, which can also drop
later candidates of length at most L. -/
theorem c3_length_filter_refinement (fuel L : Nat) (t : Hir)
    (h : repetitionFree t = true) :
    iterate_all fuel t (some L) =
      (iterate_all fuel t none).filter (fun c => c.length ≤ L) :=
  c3_core fuel L t h

/-- Witness for C3's amended claim at the tree of `(a|bb)` with max_length
1. -/
theorem c3_length_filter_refinement_witness :
    repetitionFree (Hir.alternation [Hir.literal [97], Hir.literal [98, 98]]) =
      true ∧
    iterate_all 0 (Hir.alternation [Hir.literal [97], Hir.literal [98, 98]])
      (some 1) =
      (iterate_all 0 (Hir.alternation [Hir.literal [97], Hir.literal [98, 98]])
        none).filter (fun c => c.length ≤ 1) :=
  ⟨by decide, c3_length_filter_refinement 0 1 _ (by decide)⟩

lemma takeWhile_append_left {α : Type} (p : α → Bool) :
    ∀ (xs ys : List α), xs.all p = false →
      (xs ++ ys).takeWhile p = xs.takeWhile p := by
  intro xs
  induction xs with
  | nil =>
    intro ys h
    simp at h
  | cons a l ih =>
    intro ys h
    rw [List.all_cons] at h
    cases ha : p a with
    | false => simp [List.takeWhile_cons, ha]
    | true =>
      rw [ha, Bool.true_and] at h
      simp [List.takeWhile_cons, ha, ih ys h]

lemma specProduct_replicate_single {α : Type} (x : α) : ∀ (r : Nat),
    specProduct (List.replicate r [x]) = [List.replicate r x] := by
  intro r
  induction r with
  | zero => rfl
  | succ n ih =>
    rw [List.replicate_succ, specProduct, ih, List.replicate_succ]
    rfl

lemma repMapper_literal (c fuel r : Nat) :
    repMapper fuel (Hir.literal [c]) (some 5) r = [List.replicate r c] := by
  have h1 : iterate_all fuel (Hir.literal [c]) (some 5) = [[c]] := rfl
  rw [repMapper, h1, mcpRun_eq_specProduct, specProduct_replicate_single]
  have h2 : ∀ n, (List.replicate n ([c] : List Nat)).flatten =
      List.replicate n c := by
    intro n
    induction n with
    | zero => rfl
    | succ m ih => rw [List.replicate_succ, List.flatten_cons, ih,
        List.replicate_succ, List.singleton_append]
  rw [List.map_cons, List.map_nil, h2]

lemma rep_star_stable (c k : Nat) :
    iterate_all (7 + k) (Hir.repetition 0 none (Hir.literal [c])) (some 5) =
      iterate_all 7 (Hir.repetition 0 none (Hir.literal [c])) (some 5) := by
  rw [iterate_all_rep_ns, iterate_all_rep_ns]
  have hm : ∀ r ∈ List.range' 0 (7 + k),
      repMapper (7 + k) (Hir.literal [c]) (some 5) r =
      repMapper 7 (Hir.literal [c]) (some 5) r := fun r _ => rfl
  rw [flatMap_congr_mem _ _ _ hm]
  have hsplit : List.range' 0 (7 + k) = List.range' 0 7 ++ List.range' 7 k := by
    rw [List.range'_append, Nat.add_comm 7 k]
  rw [hsplit, List.flatMap_append, takeWhile_append_left]
  have hchunk : (List.range' 0 7).flatMap
      (repMapper 7 (Hir.literal [c]) (some 5)) =
      [[], [c], [c, c], [c, c, c], [c, c, c, c], [c, c, c, c, c],
        [c, c, c, c, c, c]] := by
    rw [show List.range' 0 7 = [0, 1, 2, 3, 4, 5, 6] from rfl]
    simp only [List.flatMap_cons, List.flatMap_nil, repMapper_literal]
    rfl
  rw [hchunk]
  simp

/-- C6: enumerating the tree of `a*b*` with max_length 5 yields exactly the
21 candidates "", "a", "aa", "aaa", "aaaa", "aaaaa", "b", "ab", "aab",
"aaab", "aaaab", "bb", "abb", "aabb", "aaabb", "bbb", "abbb", "aabbb",
"bbbb", "abbbb", "bbbbb" in this order (bytes 97 = 'a', 98 = 'b'); stated
for every fuel from 7 up, past the point where the truncated model agrees
with the lazy stream. -/
theorem c6_a_star_b_star_scenario (fuel : Nat) (h : 7 ≤ fuel) :
    iterate_all fuel (Hir.concat [Hir.repetition 0 none (Hir.literal [97]),
      Hir.repetition 0 none (Hir.literal [98])]) (some 5) =
      [[], [97], [97, 97], [97, 97, 97], [97, 97, 97, 97],
        [97, 97, 97, 97, 97], [98], [97, 98], [97, 97, 98],
        [97, 97, 97, 98], [97, 97, 97, 97, 98], [98, 98], [97, 98, 98],
        [97, 97, 98, 98], [97, 97, 97, 98, 98], [98, 98, 98],
        [97, 98, 98, 98], [97, 97, 98, 98, 98], [98, 98, 98, 98],
        [97, 98, 98, 98, 98], [98, 98, 98, 98, 98]] := by
  obtain ⟨k, rfl⟩ : ∃ k, fuel = 7 + k := ⟨fuel - 7, by omega⟩
  rw [iterate_all_concat, iterateParts_eq_map]
  simp only [List.map_cons, List.map_nil]
  rw [rep_star_stable 97 k, rep_star_stable 98 k]
  decide

/-- Witness for C6 at fuel 7. -/
theorem c6_a_star_b_star_scenario_witness :
    7 ≤ 7 ∧
    iterate_all 7 (Hir.concat [Hir.repetition 0 none (Hir.literal [97]),
      Hir.repetition 0 none (Hir.literal [98])]) (some 5) =
      [[], [97], [97, 97], [97, 97, 97], [97, 97, 97, 97],
        [97, 97, 97, 97, 97], [98], [97, 98], [97, 97, 98],
        [97, 97, 97, 98], [97, 97, 97, 97, 98], [98, 98], [97, 98, 98],
        [97, 97, 98, 98], [97, 97, 97, 98, 98], [98, 98, 98],
        [97, 98, 98, 98], [97, 97, 98, 98, 98], [98, 98, 98, 98],
        [97, 98, 98, 98, 98], [98, 98, 98, 98, 98]] :=
  ⟨by decide, c6_a_star_b_star_scenario 7 (by decide)⟩
